import Mathlib

/-!
# FastLane-Labs/atlas coverage helper scripts

A shallow embedding of the two scripts

* `filter_lcov.js`: splits `lcov.info` into records, drops the records of the
  excluded directories and writes the rest to `lcov_filtered.info`;
* `run_coverage.js`: renames the ignored files from `.sol` to `.txt`, runs the
  coverage command and renames them back.

JavaScript strings are modelled as lists of characters (`Text`).  The string
built-ins used by the scripts (`split`, `includes`, `join`, `replace`) are
modelled for the way the scripts call them: a non-empty string separator or
pattern and a replacement without `$` patterns.
-/

namespace Atlas

/-- A JavaScript string, as the list of its characters. -/
abbrev Text := List Char

/-! ## String built-ins used by the scripts -/

/-- Models `s.includes(pat)`: does `pat` occur in `s` as a contiguous substring. -/
def includes : Text → Text → Bool
  | [], pat => pat.isPrefixOf []
  | c :: cs, pat => pat.isPrefixOf (c :: cs) || includes cs pat

/-- The scan behind `s.split(sep)` for a non-empty string `sep`.  The text is
read left to right.  `skip` counts the characters of an already matched
separator that are still to be passed over.  Where the separator matches, the
current segment is closed and a new one is opened after the separator;
elsewhere the character joins the current segment. -/
def splitGo (sep : Text) : Nat → Text → List Text
  | _, [] => [[]]
  | skip + 1, _ :: cs => splitGo sep skip cs
  | 0, c :: cs =>
      if sep.isPrefixOf (c :: cs) then [] :: splitGo sep (sep.length - 1) cs
      else
        match splitGo sep 0 cs with
        | r :: rs => (c :: r) :: rs
        | [] => [[c]]

/-- Models `s.split(sep)` for a non-empty string `sep`: the segments of `s`
between the successive leftmost occurrences of `sep`; the empty string gives
`[""]`. -/
def split (s sep : Text) : List Text := splitGo sep 0 s

/-- Models `xs.join(sep)`: the elements with `sep` between neighbours; the empty
array gives the empty string. -/
def join : List Text → Text → Text
  | [], _ => []
  | [x], _ => x
  | x :: y :: rest, sep => x ++ sep ++ join (y :: rest) sep

/-- Models `s.replace(pat, rep)` for strings `pat` and `rep` (`rep` without `$`
patterns): the first occurrence of `pat` is replaced by `rep`; without an
occurrence the string is unchanged. -/
def replace : Text → Text → Text → Text
  | [], pat, rep => if pat.isPrefixOf [] then rep else []
  | c :: cs, pat, rep =>
      if pat.isPrefixOf (c :: cs) then rep ++ (c :: cs).drop pat.length
      else c :: replace cs pat rep

/-! ## Overlap checks on patterns

Two decidable checks used to reason about where a pattern can occur in a text
that is put together from pieces. -/

/-- Whether an occurrence of `x` that starts before an occurrence of `pat` could
run into it: some proper non-empty suffix of `x` and `pat` agree on their common
length. -/
def runsInto (x pat : Text) : Bool :=
  (List.range x.length).any
    (fun k => k != 0 && ((x.drop k).isPrefixOf pat || pat.isPrefixOf (x.drop k)))

/-- Whether an occurrence of `x` could start at a position inside `pat`: some
non-empty suffix of `pat` and `x` agree on their common length. -/
def startsInside (x pat : Text) : Bool :=
  (List.range pat.length).any
    (fun j => x.isPrefixOf (pat.drop j) || (pat.drop j).isPrefixOf x)

/-! ## filter_lcov.js -/

/-- The literal `'end_of_record\n'` on which the report is split. -/
def recordDelimiter : Text := "end_of_record\n".toList

/-- The literal `'end_of_record'` appended to every retained record. -/
def endOfRecord : Text := "end_of_record".toList

/-- The literal `'\n'` with which the retained records are joined. -/
def newline : Text := "\n".toList

/-- The tag `SF:` of the template literal in the exclusion test. -/
def sfTag : Text := "SF:".toList

/-- The array `excludeDirs = ['test/', 'script/']`. -/
def excludeDirs : List Text := ["test/".toList, "script/".toList]

/-- The array `records = data.split('end_of_record\n')`. -/
def records (data : Text) : List Text := split data recordDelimiter

/-- The test `excludeDirs.some(dir => record.includes(SF:dir))` with the tag and
the directory concatenated as in the template literal. -/
def isExcluded (record : Text) : Bool :=
  excludeDirs.any (fun dir => includes record (sfTag ++ dir))

/-- The record candidates that pass the exclusion test, in input order (the
records for which something is pushed). -/
def retained (data : Text) : List Text :=
  (records data).filter (fun record => !isExcluded record)

/-- The record candidates that fail the exclusion test (nothing is pushed for
them). -/
def discarded (data : Text) : List Text :=
  (records data).filter (fun record => isExcluded record)

/-- The array `filteredRecords` after the `forEach` over `records`: starting from
the empty array, `record + 'end_of_record'` is pushed for every record that is
not excluded. -/
def filteredRecords (data : Text) : List Text :=
  (records data).foldl
    (fun acc record => if !isExcluded record then acc ++ [record ++ endOfRecord] else acc) []

/-- The text handed to `fs.writeFile`: `filteredRecords.join('\n')`. -/
def filterLcov (data : Text) : Text := join (filteredRecords data) newline

/-- The `fs.readFile` callback.  The argument is `none` when reading failed
(`err` is set): the error is logged and nothing is written.  Otherwise the
result is the content written to `lcov_filtered.info`. -/
def readFileCallback : Option Text → Option Text
  | none => none
  | some data => some (filterLcov data)

/-- A well-formed report: the records in order, each followed by the line
`end_of_record`. -/
def concatRecords : List Text → Text
  | [] => []
  | r :: rs => r ++ recordDelimiter ++ concatRecords rs

/-- The reading of the exclusion rule by lines: some line of the record starts
with the tag `SF:` immediately followed by one of the excluded prefixes. -/
def pathLineExcluded (record : Text) : Bool :=
  (split record newline).any
    (fun line => excludeDirs.any (fun dir => (sfTag ++ dir).isPrefixOf line))

/-- The record for `src/Foo.sol` of the three-record scenario. -/
def fooRecord : Text := "SF:src/Foo.sol\nDA:1,1\n".toList

/-- The three-record scenario: `src/Foo.sol`, `test/Foo.t.sol` and
`script/Deploy.s.sol`, each terminated by `end_of_record`. -/
def threeRecords : Text :=
  concatRecords [fooRecord, "SF:test/Foo.t.sol\nDA:1,1\n".toList,
    "SF:script/Deploy.s.sol\nDA:2,0\n".toList]

/-- A record whose source-path line is `SF:src/Foo.sol` and whose test-name line
holds the text `SF:test/`. -/
def tagOnOtherLine : Text := "TN:SF:test/\nSF:src/Foo.sol\nDA:1,1\n".toList

/-- A record for a file in the directory `src/SF:test`: the excluded text comes
later in the path, not right after the tag that starts the line. -/
def tagLaterInPath : Text := "SF:src/SF:test/Foo.sol\nDA:1,1\n".toList

/-- A report cut off before any `end_of_record` line. -/
def truncatedReport : Text := "SF:src/A.sol\nDA:1,1\n".toList

/-- A report whose only record is excluded and whose last line lacks the final
newline. -/
def onlyExcluded : Text := "SF:test/Foo.t.sol\nDA:1,1\nend_of_record".toList

/-! ## run_coverage.js -/

/-- The extension `'.sol'`. -/
def solExt : Text := ".sol".toList

/-- The extension `'.txt'`. -/
def txtExt : Text := ".txt".toList

/-- The configured `filesToIgnore`. -/
def filesToIgnore : List Text := ["test/V4SwapIntent.t.sol".toList]

/-- What the scripts do not control: whether the file system lets a given
rename through, and whether the coverage command exits without error. -/
structure Env where
  /-- Whether `fs.rename oldName newName` is let through when `oldName` exists. -/
  renameAllowed : Text → Text → Bool
  /-- Whether the command given to `exec` ends without error. -/
  commandSucceeds : Bool

/-- The directory entries on disk: each name with the number of the file it
refers to.  Two names with the same number are hard links of one file. -/
abbrev Disk := List (Text × Nat)

/-- The file a name refers to on disk, when the name exists. -/
def lookup (disk : Disk) (name : Text) : Option Nat :=
  (disk.find? (fun entry => entry.1 == name)).map (fun entry => entry.2)

/-- The state `run_coverage.js` works on: the array `filesToIgnore` and the
names present on disk. -/
structure State where
  /-- The current content of the array `filesToIgnore`. -/
  files : List Text
  /-- The names on disk, each with its file. -/
  disk : Disk
deriving DecidableEq, Repr

deriving instance DecidableEq for Except

/-- Models `renameFile(oldName, newName)`: `fs.rename` rejects when `oldName` is
not on disk or the environment refuses.  When both names already refer to the
same file (the same name, or two hard links of one file) the call succeeds and
changes nothing.  Otherwise `oldName` disappears and `newName` refers to its
file, replacing a file of that name. -/
def renameFile (env : Env) (disk : Disk) (oldName newName : Text) : Option Disk :=
  match lookup disk oldName with
  | none => none
  | some file =>
      if env.renameAllowed oldName newName = true then
        if lookup disk newName = some file then some disk
        else
          some ((newName, file) ::
            disk.filter (fun entry => entry.1 != oldName && entry.1 != newName))
      else none

/-- Models `executeCommand(command)`: the promise rejects when the command fails
(the later `resolve()` has no effect on a settled promise).  The command is
taken not to touch the tracked names. -/
def executeCommand (env : Env) (st : State) : Except State State :=
  if env.commandSucceeds then .ok st else .error st

/-- The loop of `renameFiles` from index `done.length` on: `done` holds the
entries already renamed and stored back, the list argument the entries still to
do.  A rejected rename throws out of the loop (`Except.error`) with the state
reached so far. -/
def renameFilesFrom (env : Env) (extensionFrom extensionTo : Text) (done : List Text) :
    List Text → Disk → Except State State
  | [], disk => .ok ⟨done, disk⟩
  | name :: rest, disk =>
      let newName := replace name extensionFrom extensionTo
      match renameFile env disk name newName with
      | none => .error ⟨done ++ name :: rest, disk⟩
      | some disk1 =>
          renameFilesFrom env extensionFrom extensionTo (done ++ [newName]) rest disk1

/-- Models `renameFiles(extensionFrom, extensionTo)` on the whole array. -/
def renameFiles (env : Env) (extensionFrom extensionTo : Text) (st : State) :
    Except State State :=
  renameFilesFrom env extensionFrom extensionTo [] st.files st.disk

/-- What a run of `runCoverage` leaves behind: the final state and whether the
`catch` block logged an error. -/
structure Outcome where
  /-- The state at the end of the run. -/
  final : State
  /-- Whether `An error occurred` was logged. -/
  errorLogged : Bool
deriving DecidableEq, Repr

/-- Models `runCoverage()`: rename to `.txt`, run the command, rename back to
`.sol`, all inside one `try`; the `catch` only logs. -/
def runCoverage (env : Env) (st : State) : Outcome :=
  match renameFiles env solExt txtExt st with
  | .error st1 => ⟨st1, true⟩
  | .ok st1 =>
    match executeCommand env st1 with
    | .error st2 => ⟨st2, true⟩
    | .ok st2 =>
      match renameFiles env txtExt solExt st2 with
      | .error st3 => ⟨st3, true⟩
      | .ok st3 => ⟨st3, false⟩

/-- A name that the two renames bring back to itself: it contains `.sol`, and no
`.txt` (and no earlier `.sol`) stands before that `.sol`. -/
def Restorable (name : Text) : Prop :=
  ∃ p q : Text, name = p ++ solExt ++ q ∧ ¬ solExt <:+: p ∧ ¬ txtExt <:+: p

/-- An environment in which every rename of an existing file goes through. -/
def allowAll (commandSucceeds : Bool) : Env := ⟨fun _ _ => true, commandSucceeds⟩

/-- The state in which exactly the listed names are on disk, each a file of its
own. -/
def initialState (names : List Text) : State :=
  ⟨names, names.zip (List.range names.length)⟩

/-- A name with `.txt` before its `.sol`. -/
def txtBeforeSol : Text := "test/Notes.txt.sol".toList

/-! ## Lemmas on the string built-ins -/

/-- The model of `includes` decides the contiguous-sublist relation. -/
theorem includes_iff (s pat : Text) : includes s pat = true ↔ pat <:+: s := by
  induction s with
  | nil => simp [includes]
  | cons c cs ih =>
    simp only [includes, Bool.or_eq_true, ih, List.infix_cons_iff]
    simp

theorem includes_eq_false_iff (s pat : Text) : includes s pat = false ↔ ¬ pat <:+: s := by
  rw [← includes_iff]; simp

theorem splitGo_ne_nil (sep : Text) (k : Nat) (s : Text) : splitGo sep k s ≠ [] := by
  induction s generalizing k with
  | nil => simp [splitGo]
  | cons c cs ih =>
    cases k with
    | succ k => simpa [splitGo] using ih k
    | zero =>
      simp only [splitGo]
      split
      · simp
      · split <;> simp

theorem splitGo_skip (sep : Text) (k : Nat) (s : Text) :
    splitGo sep k s = splitGo sep 0 (s.drop k) := by
  induction s generalizing k with
  | nil => simp [splitGo]
  | cons c cs ih =>
    cases k with
    | succ k => simpa [splitGo] using ih k
    | zero => simp

/-- The scan, unfolded at a non-empty text: at a match the separator is passed
over, elsewhere the character joins the first segment of the rest. -/
theorem splitGo_cons (sep : Text) (c : Char) (cs : Text) :
    splitGo sep 0 (c :: cs) =
      if sep <+: c :: cs then [] :: splitGo sep 0 (cs.drop (sep.length - 1))
      else match splitGo sep 0 cs with
        | r :: rs => (c :: r) :: rs
        | [] => [[c]] := by
  by_cases h : sep <+: c :: cs
  · have h1 : sep.isPrefixOf (c :: cs) = true := by simpa using h
    rw [if_pos h]
    simp only [splitGo, h1, if_true]
    rw [splitGo_skip]
  · have h1 : ¬ sep.isPrefixOf (c :: cs) = true := by simpa using h
    rw [if_neg h]
    simp only [splitGo, h1]
    simp

theorem join_cons_cons (x y : Text) (rest : List Text) (sep : Text) :
    join (x :: y :: rest) sep = x ++ sep ++ join (y :: rest) sep := rfl

theorem join_cons_of_ne_nil (x : Text) (ys : List Text) (sep : Text) (h : ys ≠ []) :
    join (x :: ys) sep = x ++ sep ++ join ys sep := by
  cases ys with
  | nil => exact absurd rfl h
  | cons y rest => rfl

theorem join_cons_head (c : Char) (r : Text) (rs : List Text) (sep : Text) :
    join ((c :: r) :: rs) sep = c :: join (r :: rs) sep := by
  cases rs with
  | nil => rfl
  | cons y rest => simp [join]

theorem join_splitGo (sep : Text) (hsep : sep ≠ []) (k : Nat) (s : Text) :
    join (splitGo sep k s) sep = s.drop k := by
  induction s generalizing k with
  | nil => simp [splitGo, join]
  | cons c cs ih =>
    cases k with
    | succ k => simpa [splitGo] using ih k
    | zero =>
      rw [splitGo_cons sep]
      by_cases h : sep <+: c :: cs
      · rw [if_pos h, join_cons_of_ne_nil _ _ _ (splitGo_ne_nil _ _ _)]
        rw [← splitGo_skip, ih]
        have h2 := List.prefix_iff_eq_append.mp h
        cases sep with
        | nil => exact absurd rfl hsep
        | cons a as => simpa using h2
      · rw [if_neg h]
        have h0 := ih 0
        cases hs : splitGo sep 0 cs with
        | nil => exact absurd hs (splitGo_ne_nil _ _ _)
        | cons r rs =>
          rw [hs] at h0
          simp only [join_cons_head, h0]
          simp

/-- Joining the segments with the separator gives the text back. -/
theorem join_split (s sep : Text) (hsep : sep ≠ []) : join (split s sep) sep = s := by
  simpa [split] using join_splitGo sep hsep 0 s

theorem head_prefix_join (r : Text) (rs : List Text) (sep : Text) :
    r <+: join (r :: rs) sep := by
  cases rs with
  | nil => exact List.prefix_refl r
  | cons y rest =>
    rw [join_cons_cons, List.append_assoc]
    exact List.prefix_append _ _

theorem infix_join_of_mem (sep : Text) (xs : List Text) (r : Text) (h : r ∈ xs) :
    r <:+: join xs sep := by
  induction xs with
  | nil => cases h
  | cons x rest ih =>
    rcases List.mem_cons.mp h with rfl | h1
    · exact (head_prefix_join r rest sep).isInfix
    · have hne : rest ≠ [] := List.ne_nil_of_mem h1
      rw [join_cons_of_ne_nil _ _ _ hne]
      exact (ih h1).trans (List.suffix_append _ _).isInfix

theorem infix_of_mem_split (s sep : Text) (hsep : sep ≠ []) (r : Text) (h : r ∈ split s sep) :
    r <:+: s := by
  have := infix_join_of_mem sep (split s sep) r h
  rwa [join_split s sep hsep] at this

theorem infix_join_inner (sep : Text) (pre : List Text) (r : Text) (post : List Text)
    (hpost : post ≠ []) : r ++ sep <:+: join (pre ++ r :: post) sep := by
  induction pre with
  | nil =>
    rw [List.nil_append, join_cons_of_ne_nil _ _ _ hpost]
    exact (List.prefix_append _ _).isInfix
  | cons x rest ih =>
    rw [List.cons_append, join_cons_of_ne_nil _ _ _ (by simp)]
    exact ih.trans (List.suffix_append _ _).isInfix

theorem splitGo_no_sep (sep : Text) (hsep : sep ≠ []) (k : Nat) (s : Text) :
    ∀ r ∈ splitGo sep k s, ¬ sep <:+: r := by
  induction s generalizing k with
  | nil =>
    intro r hr
    simp only [splitGo, List.mem_singleton] at hr
    subst hr
    simpa using hsep
  | cons c cs ih =>
    cases k with
    | succ k => simpa [splitGo] using ih k
    | zero =>
      rw [splitGo_cons sep]
      by_cases h : sep <+: c :: cs
      · rw [if_pos h]
        intro r hr
        rcases List.mem_cons.mp hr with rfl | h1
        · simpa using hsep
        · rw [← splitGo_skip] at h1
          exact ih _ r h1
      · rw [if_neg h]
        have h0 := ih 0
        have hj := join_splitGo sep hsep 0 cs
        cases hs : splitGo sep 0 cs with
        | nil => exact absurd hs (splitGo_ne_nil _ _ _)
        | cons r rs =>
          rw [hs] at h0 hj
          intro r1 hr1
          rcases List.mem_cons.mp hr1 with rfl | h1
          · rw [List.infix_cons_iff]
            rintro (hp | hi)
            · apply h
              refine hp.trans ?_
              have := head_prefix_join r rs sep
              rw [hj] at this
              simpa using (List.prefix_cons_inj c).mpr this
            · exact h0 r (List.mem_cons_self _ _) hi
          · exact h0 r1 (List.mem_cons_of_mem _ h1)

/-- No segment of a split contains the separator. -/
theorem split_no_sep (s sep : Text) (hsep : sep ≠ []) :
    ∀ r ∈ split s sep, ¬ sep <:+: r := splitGo_no_sep sep hsep 0 s

theorem prefix_comparable {x y z : Text} (hx : x <+: z) (hy : y <+: z) :
    x <+: y ∨ y <+: x := by
  rcases Nat.le_total x.length y.length with h | h
  · exact Or.inl (List.prefix_of_prefix_length_le hx hy h)
  · exact Or.inr (List.prefix_of_prefix_length_le hy hx h)

theorem prefix_append_cases {x a b : Text} (h : x <+: a ++ b) :
    x <+: a ∨ (a <+: x ∧ x.drop a.length <+: b) := by
  rcases prefix_comparable h (List.prefix_append a b) with h1 | h1
  · exact Or.inl h1
  · right
    refine ⟨h1, ?_⟩
    obtain ⟨u, rfl⟩ := h1
    rw [List.drop_left]
    exact (List.prefix_append_right_inj a).mp h

theorem infix_iff_exists_drop (x s : Text) : x <:+: s ↔ ∃ i, x <+: s.drop i := by
  constructor
  · rintro ⟨a, b, rfl⟩
    refine ⟨a.length, ?_⟩
    rw [List.append_assoc, List.drop_left]
    exact List.prefix_append _ _
  · rintro ⟨i, hi⟩
    exact hi.isInfix.trans (List.drop_suffix i s).isInfix

theorem runsInto_false {x pat : Text} (h : runsInto x pat = false) (k : Nat) (hk0 : k ≠ 0)
    (hk : k < x.length) (q : Text) : ¬ x.drop k <+: pat ++ q := by
  intro hp
  have hc := prefix_comparable hp (List.prefix_append pat q)
  have : runsInto x pat = true := by
    unfold runsInto
    rw [List.any_eq_true]
    refine ⟨k, List.mem_range.mpr hk, ?_⟩
    rcases hc with hc | hc
    · simp [hk0, List.isPrefixOf_iff_prefix.mpr hc]
    · simp [hk0, List.isPrefixOf_iff_prefix.mpr hc]
  rw [h] at this
  exact Bool.false_ne_true this

theorem startsInside_false {x pat : Text} (h : startsInside x pat = false) (j : Nat)
    (hj : j < pat.length) (q : Text) : ¬ x <+: pat.drop j ++ q := by
  intro hp
  have hc := prefix_comparable hp (List.prefix_append (pat.drop j) q)
  have : startsInside x pat = true := by
    unfold startsInside
    rw [List.any_eq_true]
    refine ⟨j, List.mem_range.mpr hj, ?_⟩
    rcases hc with hc | hc
    · simp [List.isPrefixOf_iff_prefix.mpr hc]
    · simp [List.isPrefixOf_iff_prefix.mpr hc]
  rw [h] at this
  exact Bool.false_ne_true this

/-- When `x` cannot run into `pat` and does not occur in `p`, no occurrence of `x`
starts inside `p` in the text `p ++ pat ++ q`. -/
theorem no_early_match (x pat : Text) (hrun : runsInto x pat = false) (p q : Text)
    (hp : ¬ x <:+: p) (i : Nat) (hi : i < p.length) :
    ¬ x <+: (p ++ pat ++ q).drop i := by
  intro h
  rw [List.append_assoc, List.drop_append_of_le_length (Nat.le_of_lt hi)] at h
  have hsuf : p.drop i <:+ p := List.drop_suffix i p
  have hlen : (p.drop i).length = p.length - i := List.length_drop i p
  rcases prefix_append_cases h with h1 | ⟨h1, h2⟩
  · exact hp (h1.isInfix.trans hsuf.isInfix)
  · by_cases hk : (p.drop i).length < x.length
    · exact runsInto_false hrun _ (by omega) hk q h2
    · have hxe : p.drop i = x := List.IsPrefix.eq_of_length_le h1 (by omega)
      exact hp (hxe ▸ hsuf.isInfix)

/-- When `x` can neither run into `pat` nor start inside it, `x` occurs in
`p ++ pat ++ q` only if it occurs in `p` or in `q`. -/
theorem not_infix_around (x pat : Text) (hrun : runsInto x pat = false)
    (hin : startsInside x pat = false) (p q : Text) (hp : ¬ x <:+: p) (hq : ¬ x <:+: q) :
    ¬ x <:+: p ++ pat ++ q := by
  intro h
  obtain ⟨i, hi⟩ := (infix_iff_exists_drop _ _).mp h
  by_cases h1 : i < p.length
  · exact no_early_match x pat hrun p q hp i h1 hi
  · rw [List.append_assoc, List.drop_append_eq_append_drop,
      List.drop_of_length_le (Nat.le_of_not_lt h1), List.nil_append] at hi
    by_cases h2 : i - p.length < pat.length
    · rw [List.drop_append_of_le_length (Nat.le_of_lt h2)] at hi
      exact startsInside_false hin _ h2 q hi
    · rw [List.drop_append_eq_append_drop,
        List.drop_of_length_le (Nat.le_of_not_lt h2), List.nil_append] at hi
      exact hq (hi.isInfix.trans (List.drop_suffix _ q).isInfix)

theorem splitGo_append (sep : Text) (hsep : sep ≠ []) (r t : Text)
    (h : ∀ i, i < r.length → ¬ sep <+: (r ++ sep ++ t).drop i) :
    splitGo sep 0 (r ++ sep ++ t) = r :: splitGo sep 0 t := by
  induction r with
  | nil =>
    cases sep with
    | nil => exact absurd rfl hsep
    | cons a as =>
      have hp : (a :: as) <+: a :: (as ++ t) := by
        simp
      simp only [List.nil_append, List.cons_append]
      rw [splitGo_cons, if_pos hp]
      simp
  | cons c cs ih =>
    have h0 := h 0 (by simp)
    simp only [List.drop_zero, List.cons_append] at h0
    simp only [List.cons_append]
    rw [splitGo_cons, if_neg h0, ih]
    intro i hi
    have := h (i + 1) (by simpa using hi)
    simpa [List.append_assoc] using this

/-- Splitting `r ++ sep ++ t`, with `sep` not in `r`, gives `r` and then the
segments of `t`. -/
theorem split_append (sep : Text) (hsep : sep ≠ []) (hu : runsInto sep sep = false) (r t : Text)
    (hr : ¬ sep <:+: r) : split (r ++ sep ++ t) sep = r :: split t sep :=
  splitGo_append sep hsep r t (fun i hi => no_early_match sep sep hu r t hr i hi)

/-- A text without the separator is its own single segment. -/
theorem split_no_match (sep : Text) (s : Text) (h : ¬ sep <:+: s) :
    split s sep = [s] := by
  unfold split
  induction s with
  | nil => simp [splitGo]
  | cons c cs ih =>
    rw [List.infix_cons_iff, not_or] at h
    rw [splitGo_cons, if_neg h.1, ih h.2]

theorem replace_cons (c : Char) (cs pat rep : Text) :
    replace (c :: cs) pat rep =
      if pat <+: c :: cs then rep ++ (c :: cs).drop pat.length else c :: replace cs pat rep := by
  by_cases h : pat <+: c :: cs
  · have h1 : pat.isPrefixOf (c :: cs) = true := by simpa using h
    rw [if_pos h]
    simp only [replace, h1, if_true]
  · have h1 : ¬ pat.isPrefixOf (c :: cs) = true := by simpa using h
    rw [if_neg h]
    simp only [replace, h1]
    simp

theorem replace_at_first (pat rep p q : Text)
    (h : ∀ i, i < p.length → ¬ pat <+: (p ++ pat ++ q).drop i) :
    replace (p ++ pat ++ q) pat rep = p ++ rep ++ q := by
  induction p with
  | nil =>
    simp only [List.nil_append]
    cases hs : pat ++ q with
    | nil =>
      have hp : pat = [] := (List.append_eq_nil.mp hs).1
      have hq : q = [] := (List.append_eq_nil.mp hs).2
      simp [replace, hp, hq]
    | cons c cs =>
      have hp : pat <+: c :: cs := by
        rw [← hs]; exact List.prefix_append _ _
      rw [replace_cons, if_pos hp, ← hs]
      simp
  | cons c cs ih =>
    have h0 := h 0 (by simp)
    simp only [List.drop_zero, List.cons_append] at h0
    simp only [List.cons_append]
    rw [replace_cons, if_neg h0, ih]
    intro i hi
    have := h (i + 1) (by simpa using hi)
    simpa [List.append_assoc] using this

/-- Replacing in `p ++ pat ++ q`, with `pat` not in `p`, rewrites exactly that
occurrence. -/
theorem replace_first (pat rep p q : Text) (hu : runsInto pat pat = false) (hp : ¬ pat <:+: p) :
    replace (p ++ pat ++ q) pat rep = p ++ rep ++ q :=
  replace_at_first pat rep p q (fun i hi => no_early_match pat pat hu p q hp i hi)

/-! ## Facts about the literals of filter_lcov.js -/

theorem recordDelimiter_eq : recordDelimiter = endOfRecord ++ newline := by decide

theorem recordDelimiter_ne_nil : recordDelimiter ≠ [] := by decide

theorem recordDelimiter_unbordered : runsInto recordDelimiter recordDelimiter = false := by
  decide

theorem sfTest_eq : sfTag ++ "test/".toList = "SF:test/".toList := by decide

theorem sfScript_eq : sfTag ++ "script/".toList = "SF:script/".toList := by decide

theorem isExcluded_eq (record : Text) :
    isExcluded record =
      (includes record "SF:test/".toList || includes record "SF:script/".toList) := by
  unfold isExcluded excludeDirs
  rw [List.any_cons, List.any_cons, List.any_nil, Bool.or_false, sfTest_eq, sfScript_eq]

theorem isExcluded_eq_false_iff (record : Text) :
    isExcluded record = false ↔
      includes record "SF:test/".toList = false ∧
        includes record "SF:script/".toList = false := by
  rw [isExcluded_eq, Bool.or_eq_false_iff]

theorem includes_mono {r s pat : Text} (h : r <:+: s) (hr : includes r pat = true) :
    includes s pat = true :=
  (includes_iff s pat).mpr (((includes_iff r pat).mp hr).trans h)

theorem isExcluded_mono {r s : Text} (h : r <:+: s) (hr : isExcluded r = true) :
    isExcluded s = true := by
  rw [isExcluded_eq, Bool.or_eq_true] at hr ⊢
  exact hr.imp (includes_mono h) (includes_mono h)

theorem records_ne_nil (data : Text) : records data ≠ [] := splitGo_ne_nil _ _ _

theorem join_records (data : Text) : join (records data) recordDelimiter = data :=
  join_split data recordDelimiter recordDelimiter_ne_nil

theorem infix_of_mem_records {data r : Text} (h : r ∈ records data) : r <:+: data :=
  infix_of_mem_split data recordDelimiter recordDelimiter_ne_nil r h

theorem join_map_append (rs : List Text) (hne : rs ≠ []) (e nl : Text) :
    join (rs.map (fun r => r ++ e)) nl = join rs (e ++ nl) ++ e := by
  induction rs with
  | nil => exact absurd rfl hne
  | cons r rest ih =>
    cases rest with
    | nil => simp [join]
    | cons r2 rest2 =>
      have := ih (by simp)
      simp only [List.map_cons, join_cons_cons] at this ⊢
      rw [this]
      simp [List.append_assoc]

theorem foldl_push (p : Text → Bool) (f : Text → Text) (xs acc : List Text) :
    xs.foldl (fun acc r => if !p r then acc ++ [f r] else acc) acc =
      acc ++ (xs.filter (fun r => !p r)).map f := by
  induction xs generalizing acc with
  | nil => simp
  | cons x rest ih =>
    rw [List.foldl_cons, ih]
    cases hx : p x <;> simp [List.filter_cons, hx]

/-- The `forEach` with `push` builds the retained records, each followed by
`end_of_record`, in input order. -/
theorem filteredRecords_eq (data : Text) :
    filteredRecords data = (retained data).map (fun record => record ++ endOfRecord) := by
  unfold filteredRecords retained
  rw [foldl_push isExcluded (fun record => record ++ endOfRecord), List.nil_append]

theorem filterLcov_eq (data : Text) :
    filterLcov data =
      join ((retained data).map (fun record => record ++ endOfRecord)) newline := by
  unfold filterLcov
  rw [filteredRecords_eq]

theorem retained_of_clean (data : Text) (h : isExcluded data = false) :
    retained data = records data := by
  unfold retained
  rw [List.filter_eq_self]
  intro r hr
  cases hx : isExcluded r with
  | false => rfl
  | true =>
    have := isExcluded_mono (infix_of_mem_records hr) hx
    rw [h] at this
    exact absurd this Bool.false_ne_true

theorem filterLcov_of_clean (data : Text) (h : isExcluded data = false) :
    filterLcov data = data ++ endOfRecord := by
  rw [filterLcov_eq, retained_of_clean data h, join_map_append _ (records_ne_nil data),
    ← recordDelimiter_eq, join_records]

theorem records_of_no_delimiter (data : Text) (h : includes data recordDelimiter = false) :
    records data = [data] :=
  split_no_match recordDelimiter data ((includes_eq_false_iff _ _).mp h)

/-! ## Claims about filter_lcov.js -/

/-- C10: when the input contains neither `SF:test/` nor `SF:script/`, the text
written is the input followed by one extra `end_of_record`; it therefore differs
from the input, and the empty input gives `end_of_record`. -/
theorem filterLcov_nothing_to_exclude (data : Text)
    (htest : includes data "SF:test/".toList = false)
    (hscript : includes data "SF:script/".toList = false) :
    filterLcov data = data ++ "end_of_record".toList ∧ filterLcov data ≠ data ∧
      filterLcov [] = "end_of_record".toList := by
  have h := filterLcov_of_clean data ((isExcluded_eq_false_iff data).mpr ⟨htest, hscript⟩)
  refine ⟨h, ?_, by decide⟩
  rw [h]
  intro he
  have := congrArg List.length he
  simp [endOfRecord] at this

/-- Witness for C10 on a two-record report without excluded paths. -/
theorem filterLcov_nothing_to_exclude_witness :
    filterLcov "SF:src/A.sol\nend_of_record\nSF:src/B.sol\nend_of_record\n".toList =
        "SF:src/A.sol\nend_of_record\nSF:src/B.sol\nend_of_record\n".toList ++
          "end_of_record".toList ∧
      filterLcov "SF:src/A.sol\nend_of_record\nSF:src/B.sol\nend_of_record\n".toList ≠
        "SF:src/A.sol\nend_of_record\nSF:src/B.sol\nend_of_record\n".toList ∧
      filterLcov [] = "end_of_record".toList :=
  filterLcov_nothing_to_exclude
    "SF:src/A.sol\nend_of_record\nSF:src/B.sol\nend_of_record\n".toList (by decide) (by decide)

/-- C6: an input without any `end_of_record\n` is one record: the read succeeds,
and the text written is empty when the input contains `SF:test/` or `SF:script/`,
and the input followed by `end_of_record` otherwise. -/
theorem filterLcov_no_delimiter (data : Text)
    (h : includes data "end_of_record\n".toList = false) :
    records data = [data] ∧
      readFileCallback (some data) =
        some (if includes data "SF:test/".toList || includes data "SF:script/".toList
              then [] else data ++ "end_of_record".toList) := by
  have hr := records_of_no_delimiter data h
  refine ⟨hr, ?_⟩
  simp only [readFileCallback, filterLcov_eq, retained, hr, ← isExcluded_eq]
  cases hx : isExcluded data <;> simp [hx, join, endOfRecord]

/-- Witness for C6 on a text that ends in `end_of_record` without a newline. -/
theorem filterLcov_no_delimiter_witness :
    records "SF:src/A.sol\nDA:1,1\nend_of_record".toList =
        ["SF:src/A.sol\nDA:1,1\nend_of_record".toList] ∧
      readFileCallback (some "SF:src/A.sol\nDA:1,1\nend_of_record".toList) =
        some (if includes "SF:src/A.sol\nDA:1,1\nend_of_record".toList "SF:test/".toList ||
                includes "SF:src/A.sol\nDA:1,1\nend_of_record".toList "SF:script/".toList
              then [] else "SF:src/A.sol\nDA:1,1\nend_of_record".toList ++
                "end_of_record".toList) :=
  filterLcov_no_delimiter "SF:src/A.sol\nDA:1,1\nend_of_record".toList (by decide)

theorem not_infix_output (x : Text) (hx : x ≠ []) (hrun : runsInto x recordDelimiter = false)
    (hin : startsInside x recordDelimiter = false) (rs : List Text)
    (h : ∀ r ∈ rs, ¬ x <:+: r) :
    ¬ x <:+: join (rs.map (fun r => r ++ endOfRecord)) newline := by
  have hnil : ¬ x <:+: [] := by simpa using hx
  induction rs with
  | nil => simpa [join] using hx
  | cons r rest ih =>
    have hr := h r (List.mem_cons_self _ _)
    cases rest with
    | nil =>
      intro hc
      apply not_infix_around x recordDelimiter hrun hin r [] hr hnil
      refine hc.trans ?_
      simp only [List.map_cons, List.map_nil, join, recordDelimiter_eq, List.append_nil]
      rw [← List.append_assoc]
      exact (List.prefix_append _ _).isInfix
    | cons r2 rest2 =>
      have h2 := ih (fun r1 hr1 => h r1 (List.mem_cons_of_mem _ hr1))
      simp only [List.map_cons, join_cons_cons] at h2 ⊢
      have := not_infix_around x recordDelimiter hrun hin r _ hr h2
      simpa [recordDelimiter_eq, List.append_assoc] using this

theorem mem_retained {data r : Text} :
    r ∈ retained data ↔ r ∈ records data ∧ isExcluded r = false := by
  simp [retained]

theorem mem_filteredRecords {data r : Text} :
    r ++ endOfRecord ∈ filteredRecords data ↔ r ∈ retained data := by
  rw [filteredRecords_eq, List.mem_map]
  constructor
  · rintro ⟨a, ha, he⟩
    rwa [List.append_cancel_right he] at ha
  · intro h
    exact ⟨r, h, rfl⟩

theorem filterLcov_clean (data : Text) :
    ¬ "SF:test/".toList <:+: filterLcov data ∧ ¬ "SF:script/".toList <:+: filterLcov data := by
  have hret : ∀ r ∈ retained data, includes r "SF:test/".toList = false ∧
      includes r "SF:script/".toList = false := fun r hr =>
    (isExcluded_eq_false_iff r).mp (mem_retained.mp hr).2
  rw [filterLcov_eq]
  constructor
  · exact not_infix_output _ (by decide) (by decide) (by decide) _
      (fun r hr => (includes_eq_false_iff _ _).mp (hret r hr).1)
  · exact not_infix_output _ (by decide) (by decide) (by decide) _
      (fun r hr => (includes_eq_false_iff _ _).mp (hret r hr).2)

/-- C9: the text written contains neither `SF:test/` nor `SF:script/`, also not
across the places where `end_of_record` is appended and the records are joined. -/
theorem filterLcov_no_excluded_tag (data : Text) :
    includes (filterLcov data) "SF:test/".toList = false ∧
      includes (filterLcov data) "SF:script/".toList = false :=
  ⟨(includes_eq_false_iff _ _).mpr (filterLcov_clean data).1,
    (includes_eq_false_iff _ _).mpr (filterLcov_clean data).2⟩

/-- C4: a record candidate that contains neither `SF:test/` nor `SF:script/` is
retained and written followed by `end_of_record`; this holds for every record
without any `SF:` text and for the record of `src/lib/testHelper.sol`. -/
theorem retained_of_no_excluded_tag (data r : Text) (hr : r ∈ records data)
    (htest : includes r "SF:test/".toList = false)
    (hscript : includes r "SF:script/".toList = false) :
    (r ∈ retained data ∧ r ++ "end_of_record".toList ∈ filteredRecords data ∧
        r ++ "end_of_record".toList <:+: filterLcov data) ∧
      (∀ record : Text, includes record "SF:".toList = false → isExcluded record = false) ∧
      isExcluded "SF:src/lib/testHelper.sol\nDA:1,1\n".toList = false := by
  have h1 : r ∈ retained data :=
    mem_retained.mpr ⟨hr, (isExcluded_eq_false_iff r).mpr ⟨htest, hscript⟩⟩
  have h2 : r ++ endOfRecord ∈ filteredRecords data := mem_filteredRecords.mpr h1
  refine ⟨⟨h1, h2, infix_join_of_mem _ _ _ h2⟩, ?_, by decide⟩
  intro record hrec
  rw [isExcluded_eq_false_iff]
  rw [includes_eq_false_iff] at hrec
  constructor
  · rw [includes_eq_false_iff]
    exact fun hc => hrec (List.IsInfix.trans ⟨[], "test/".toList, by decide⟩ hc)
  · rw [includes_eq_false_iff]
    exact fun hc => hrec (List.IsInfix.trans ⟨[], "script/".toList, by decide⟩ hc)

/-- Witness for C4: the record of `src/lib/testHelper.sol`. -/
theorem retained_of_no_excluded_tag_witness :
    ("SF:src/lib/testHelper.sol\nDA:1,1\n".toList ∈
          retained "SF:src/lib/testHelper.sol\nDA:1,1\nend_of_record\n".toList ∧
        "SF:src/lib/testHelper.sol\nDA:1,1\n".toList ++ "end_of_record".toList ∈
          filteredRecords "SF:src/lib/testHelper.sol\nDA:1,1\nend_of_record\n".toList ∧
        "SF:src/lib/testHelper.sol\nDA:1,1\n".toList ++ "end_of_record".toList <:+:
          filterLcov "SF:src/lib/testHelper.sol\nDA:1,1\nend_of_record\n".toList) ∧
      (∀ record : Text, includes record "SF:".toList = false → isExcluded record = false) ∧
      isExcluded "SF:src/lib/testHelper.sol\nDA:1,1\n".toList = false :=
  retained_of_no_excluded_tag "SF:src/lib/testHelper.sol\nDA:1,1\nend_of_record\n".toList
    "SF:src/lib/testHelper.sol\nDA:1,1\n".toList (by decide) (by decide) (by decide)

theorem pathLineExcluded_imp (r : Text) (h : pathLineExcluded r = true) :
    isExcluded r = true := by
  unfold pathLineExcluded at h
  rw [List.any_eq_true] at h
  obtain ⟨line, hline, hany⟩ := h
  rw [List.any_eq_true] at hany
  obtain ⟨dir, hdir, hpre⟩ := hany
  unfold isExcluded
  rw [List.any_eq_true]
  refine ⟨dir, hdir, (includes_iff _ _).mpr ?_⟩
  have h1 : line <:+: r := infix_of_mem_split r newline (by decide) line hline
  exact (List.isPrefixOf_iff_prefix.mp hpre).isInfix.trans h1

/-- C2, as the code has it: a record candidate is excluded exactly when its text
contains `SF:test/` or `SF:script/` anywhere; an excluded record is absent from
the output, every other record is present, and a record with a line that starts
with the tag and an excluded prefix is excluded. -/
theorem excluded_iff_contains_tag (data r : Text) (hr : r ∈ records data) :
    (isExcluded r = true ↔
        includes r "SF:test/".toList = true ∨ includes r "SF:script/".toList = true) ∧
      (isExcluded r = true →
        r ++ "end_of_record".toList ∉ filteredRecords data ∧ ¬ r <:+: filterLcov data) ∧
      (isExcluded r = false →
        r ++ "end_of_record".toList ∈ filteredRecords data ∧
          r ++ "end_of_record".toList <:+: filterLcov data) ∧
      (pathLineExcluded r = true → isExcluded r = true) := by
  refine ⟨by rw [isExcluded_eq, Bool.or_eq_true], ?_, ?_, pathLineExcluded_imp r⟩
  · intro hx
    constructor
    · intro hmem
      have := (mem_retained.mp (mem_filteredRecords.mp hmem)).2
      rw [hx] at this
      exact Bool.noConfusion this
    · intro hin
      rw [isExcluded_eq, Bool.or_eq_true] at hx
      rcases hx with hx | hx
      · exact (filterLcov_clean data).1 (((includes_iff _ _).mp hx).trans hin)
      · exact (filterLcov_clean data).2 (((includes_iff _ _).mp hx).trans hin)
  · intro hx
    have h2 : r ++ endOfRecord ∈ filteredRecords data :=
      mem_filteredRecords.mpr (mem_retained.mpr ⟨hr, hx⟩)
    exact ⟨h2, infix_join_of_mem _ _ _ h2⟩

/-- Witness for C2 on the three-record scenario and its `src/Foo.sol` record. -/
theorem excluded_iff_contains_tag_witness :
    (isExcluded fooRecord = true ↔
        includes fooRecord "SF:test/".toList = true ∨
          includes fooRecord "SF:script/".toList = true) ∧
      (isExcluded fooRecord = true →
        fooRecord ++ "end_of_record".toList ∉ filteredRecords threeRecords ∧
          ¬ fooRecord <:+: filterLcov threeRecords) ∧
      (isExcluded fooRecord = false →
        fooRecord ++ "end_of_record".toList ∈ filteredRecords threeRecords ∧
          fooRecord ++ "end_of_record".toList <:+: filterLcov threeRecords) ∧
      (pathLineExcluded fooRecord = true → isExcluded fooRecord = true) :=
  excluded_iff_contains_tag threeRecords fooRecord (by decide)

/-- C2 as stated fails: neither record below has a line that starts with the tag
and an excluded prefix, yet each is excluded and missing from the output. -/
theorem path_line_rule_counterexample :
    (tagOnOtherLine ∈ records (concatRecords [tagOnOtherLine]) ∧
        pathLineExcluded tagOnOtherLine = false ∧
        tagOnOtherLine ++ "end_of_record".toList ∉
          filteredRecords (concatRecords [tagOnOtherLine])) ∧
      (tagLaterInPath ∈ records (concatRecords [tagLaterInPath]) ∧
        pathLineExcluded tagLaterInPath = false ∧
        tagLaterInPath ++ "end_of_record".toList ∉
          filteredRecords (concatRecords [tagLaterInPath])) := by
  decide

/-- C3, as the code has it: the retained segments are a subsequence of the record
candidates of the input (same order, nothing modified) and the records written
are these segments, each followed by `end_of_record`; every retained segment is a
contiguous piece of the input; every segment other than the final one is
followed in the input by its `end_of_record` line; every record written is a
contiguous piece of the output. -/
theorem retained_verbatim (data : Text) :
    (retained data).Sublist (records data) ∧
      filteredRecords data = (retained data).map (fun r => r ++ "end_of_record".toList) ∧
      (∀ r ∈ retained data, r <:+: data) ∧
      (∀ (pre : List Text) (r : Text) (post : List Text),
        records data = pre ++ r :: post → post ≠ [] →
          r ++ "end_of_record\n".toList <:+: data ∧ r ++ "end_of_record".toList <:+: data) ∧
      (∀ rec ∈ filteredRecords data, rec <:+: filterLcov data) := by
  refine ⟨List.filter_sublist _, ?_, ?_, ?_, ?_⟩
  · exact filteredRecords_eq data
  · exact fun r hr => infix_of_mem_records (mem_retained.mp hr).1
  · intro pre r post hsplit hpost
    have h1 : r ++ recordDelimiter <:+: data := by
      have := infix_join_inner recordDelimiter pre r post hpost
      rwa [← hsplit, join_records] at this
    refine ⟨h1, List.IsInfix.trans ?_ h1⟩
    rw [recordDelimiter_eq, ← List.append_assoc]
    exact (List.prefix_append _ _).isInfix
  · exact fun rec hrec => infix_join_of_mem _ _ _ hrec

/-- C3 as stated fails: for a report cut off before its `end_of_record` line the
record written, sentinel included, is not a piece of the input. -/
theorem verbatim_counterexample :
    truncatedReport ++ "end_of_record".toList ∈ filteredRecords truncatedReport ∧
      ¬ truncatedReport ++ "end_of_record".toList <:+: truncatedReport := by
  decide


theorem not_delimiter_in_last (r : Text) (hr : ¬ recordDelimiter <:+: r) :
    ¬ recordDelimiter <:+: r ++ endOfRecord := by
  intro h
  obtain ⟨i, hi⟩ := (infix_iff_exists_drop _ _).mp h
  by_cases h1 : i < r.length
  · apply no_early_match recordDelimiter recordDelimiter recordDelimiter_unbordered r [] hr i h1
    have e1 : (r ++ endOfRecord).drop i = r.drop i ++ endOfRecord :=
      List.drop_append_of_le_length (Nat.le_of_lt h1)
    have e2 : (r ++ recordDelimiter ++ []).drop i = r.drop i ++ endOfRecord ++ newline := by
      rw [List.append_nil, List.drop_append_of_le_length (Nat.le_of_lt h1), recordDelimiter_eq,
        List.append_assoc]
    rw [e2]
    rw [e1] at hi
    exact hi.trans (List.prefix_append _ _)
  · rw [List.drop_append_eq_append_drop, List.drop_of_length_le (Nat.le_of_not_lt h1),
      List.nil_append] at hi
    have hlen := hi.length_le
    rw [List.length_drop] at hlen
    have h2 : recordDelimiter.length = 14 := by decide
    have h3 : endOfRecord.length = 13 := by decide
    omega

theorem records_output (rs : List Text) (hne : rs ≠ [])
    (h : ∀ r ∈ rs, ¬ recordDelimiter <:+: r) :
    (records (join (rs.map (fun r => r ++ endOfRecord)) newline)).length = rs.length := by
  induction rs with
  | nil => exact absurd rfl hne
  | cons r rest ih =>
    have hr := h r (List.mem_cons_self _ _)
    cases rest with
    | nil =>
      simp only [List.map_cons, List.map_nil, join, List.length_singleton]
      unfold records
      rw [split_no_match recordDelimiter _ (not_delimiter_in_last r hr)]
      rfl
    | cons r2 rest2 =>
      have h2 := ih (by simp) (fun r1 hr1 => h r1 (List.mem_cons_of_mem _ hr1))
      simp only [List.map_cons, join_cons_cons] at h2 ⊢
      have he : r ++ endOfRecord ++ newline ++
          join ((r2 ++ endOfRecord) :: List.map (fun r => r ++ endOfRecord) rest2) newline =
          r ++ recordDelimiter ++
            join ((r2 ++ endOfRecord) :: List.map (fun r => r ++ endOfRecord) rest2) newline := by
        simp [recordDelimiter_eq, List.append_assoc]
      rw [he]
      unfold records at h2 ⊢
      rw [split_append recordDelimiter recordDelimiter_ne_nil recordDelimiter_unbordered r _ hr,
        List.length_cons, h2]
      rfl

theorem length_filter_add (p : Text → Bool) (xs : List Text) :
    (xs.filter (fun x => !p x)).length + (xs.filter p).length = xs.length := by
  induction xs with
  | nil => rfl
  | cons x rest ih =>
    cases hx : p x <;> simp [List.filter_cons, hx] <;> omega

theorem retained_no_delimiter (data : Text) :
    ∀ r ∈ retained data, ¬ recordDelimiter <:+: r := fun r hr =>
  split_no_sep data recordDelimiter recordDelimiter_ne_nil r (mem_retained.mp hr).1

/-- C5, as the code has it: the records pushed plus the records discarded are
the record candidates of the input; splitting the written text again gives as
many records as were pushed when at least one was pushed, and one record (the
empty text) when none was. -/
theorem record_count (data : Text) :
    (filteredRecords data).length + (discarded data).length = (records data).length ∧
      (filteredRecords data ≠ [] →
        (records (filterLcov data)).length + (discarded data).length =
          (records data).length) ∧
      (filteredRecords data = [] →
        (records (filterLcov data)).length + (discarded data).length =
          (records data).length + 1) := by
  have hcount : (filteredRecords data).length + (discarded data).length =
      (records data).length := by
    rw [filteredRecords_eq, List.length_map]
    exact length_filter_add isExcluded (records data)
  refine ⟨hcount, ?_, ?_⟩
  · intro hne
    have hne2 : retained data ≠ [] := by
      intro h0
      apply hne
      simp [filteredRecords_eq, h0]
    have := records_output (retained data) hne2 (retained_no_delimiter data)
    rw [filterLcov_eq, this]
    simpa [filteredRecords_eq] using hcount
  · intro h0
    have h1 : filterLcov data = [] := by simp [filterLcov, h0, join]
    rw [h1]
    rw [h0] at hcount
    have h2 : (records []).length = 1 := by decide
    rw [h2]
    simp at hcount
    omega

/-- C5 as stated fails: the only record is discarded, the written text is empty,
and splitting the empty text gives one record, so the counts are 1 + 1 against 1. -/
theorem record_count_counterexample :
    (records (filterLcov onlyExcluded)).length + (discarded onlyExcluded).length ≠
      (records onlyExcluded).length := by
  decide

theorem records_concatRecords (rs : List Text) (h : ∀ r ∈ rs, ¬ recordDelimiter <:+: r) :
    records (concatRecords rs) = rs ++ [[]] := by
  induction rs with
  | nil => rfl
  | cons r rest ih =>
    have := ih (fun r1 hr1 => h r1 (List.mem_cons_of_mem _ hr1))
    unfold records at this ⊢
    simp only [concatRecords]
    rw [split_append recordDelimiter recordDelimiter_ne_nil recordDelimiter_unbordered r _
      (h r (List.mem_cons_self _ _)), this]
    rfl

theorem filteredRecords_concatRecords (rs : List Text)
    (h : ∀ r ∈ rs, ¬ recordDelimiter <:+: r) :
    filteredRecords (concatRecords rs) =
      (rs.filter (fun r => !isExcluded r)).map (fun r => r ++ endOfRecord) ++ [endOfRecord] := by
  rw [filteredRecords_eq]
  unfold retained
  rw [records_concatRecords rs h, List.filter_append, List.map_append]
  rfl

/-- C1: the code pushes one record too many.  For every well-formed report
(records without `end_of_record\n` inside, each followed by it) the array
`filteredRecords` holds the records that are not excluded and then a bare
`end_of_record` made from the empty segment after the last sentinel.  On the
three-record scenario it holds two records, and the text written ends in a second
`end_of_record`. -/
theorem trailing_record :
    (∀ rs : List Text, (∀ r ∈ rs, includes r "end_of_record\n".toList = false) →
        filteredRecords (concatRecords rs) =
          (rs.filter (fun r => !isExcluded r)).map (fun r => r ++ "end_of_record".toList) ++
            ["end_of_record".toList]) ∧
      records threeRecords =
        [fooRecord, "SF:test/Foo.t.sol\nDA:1,1\n".toList,
          "SF:script/Deploy.s.sol\nDA:2,0\n".toList, []] ∧
      filteredRecords threeRecords =
        [fooRecord ++ "end_of_record".toList, "end_of_record".toList] ∧
      filterLcov threeRecords =
        "SF:src/Foo.sol\nDA:1,1\nend_of_record\nend_of_record".toList :=
  ⟨fun rs h => filteredRecords_concatRecords rs
      (fun r hr => (includes_eq_false_iff _ _).mp (h r hr)),
    by decide, by decide, by decide⟩

/-! ## Facts about the renames of run_coverage.js -/

theorem replace_sol_txt (p q : Text) (hp : ¬ solExt <:+: p) :
    replace (p ++ solExt ++ q) solExt txtExt = p ++ txtExt ++ q :=
  replace_first solExt txtExt p q (by decide) hp

theorem replace_txt_sol (p q : Text) (hp : ¬ txtExt <:+: p) :
    replace (p ++ txtExt ++ q) txtExt solExt = p ++ solExt ++ q :=
  replace_first txtExt solExt p q (by decide) hp

/-- The second replacement undoes the first on a restorable name. -/
theorem replace_back {name : Text} (h : Restorable name) :
    replace (replace name solExt txtExt) txtExt solExt = name := by
  obtain ⟨p, q, rfl, hs, ht⟩ := h
  rw [replace_sol_txt p q hs, replace_txt_sol p q ht]

theorem prefix_drop_length (p x q : Text) : x <+: (p ++ x ++ q).drop p.length := by
  rw [List.append_assoc, List.drop_left]
  exact List.prefix_append _ _

/-- The `.txt` name of a restorable name is never another restorable name. -/
theorem renamed_ne_original {a b : Text} (ha : Restorable a) (hb : Restorable b) :
    replace b solExt txtExt ≠ a := by
  obtain ⟨p, q, rfl, hs, ht⟩ := ha
  obtain ⟨p2, q2, rfl, hs2, _⟩ := hb
  rw [replace_sol_txt p2 q2 hs2]
  intro he
  rcases Nat.lt_trichotomy p2.length p.length with hlt | heq | hgt
  · have h1 := prefix_drop_length p2 txtExt q2
    rw [he] at h1
    exact no_early_match txtExt solExt (by decide) p q ht _ hlt h1
  · rw [List.append_assoc, List.append_assoc] at he
    have h1 := (List.append_inj he heq).2
    have h2 := List.append_inj_left h1 (by decide)
    exact absurd h2 (by decide)
  · have h1 := prefix_drop_length p solExt q
    rw [← he] at h1
    exact no_early_match solExt txtExt (by decide) p2 q2 hs2 _ hgt h1

theorem lookup_cons (entry : Text × Nat) (disk : Disk) (x : Text) :
    lookup (entry :: disk) x = if entry.1 = x then some entry.2 else lookup disk x := by
  unfold lookup
  by_cases h : entry.1 = x
  · simp [List.find?_cons, h]
  · simp [List.find?_cons, h]

theorem lookup_filter (disk : Disk) (a b x : Text) (ha : x ≠ a) (hb : x ≠ b) :
    lookup (disk.filter (fun entry => entry.1 != a && entry.1 != b)) x = lookup disk x := by
  induction disk with
  | nil => rfl
  | cons entry rest ih =>
    by_cases hk : (entry.1 != a && entry.1 != b) = true
    · rw [List.filter_cons, if_pos hk, lookup_cons, lookup_cons, ih]
    · rw [List.filter_cons, if_neg hk, lookup_cons, ih]
      have hne : ¬ entry.1 = x := by
        intro he
        apply hk
        simp [he, ha, hb]
      rw [if_neg hne]

theorem renameFile_cases {env : Env} {disk d1 : Disk} {oldName newName : Text}
    (h : renameFile env disk oldName newName = some d1) :
    ∃ file, lookup disk oldName = some file ∧
      ((d1 = disk ∧ lookup disk newName = some file) ∨
        d1 = (newName, file) ::
          disk.filter (fun entry => entry.1 != oldName && entry.1 != newName)) := by
  unfold renameFile at h
  split at h
  · cases h
  · rename_i file hfile
    refine ⟨file, hfile, ?_⟩
    split at h
    · split at h
      · rename_i hsame
        exact Or.inl ⟨(Option.some.inj h).symm, hsame⟩
      · exact Or.inr (Option.some.inj h).symm
    · cases h

/-- After a successful rename the new name refers to the file of the old name. -/
theorem renameFile_lookup_new {env : Env} {disk d1 : Disk} {oldName newName : Text}
    (h : renameFile env disk oldName newName = some d1) :
    lookup d1 newName = lookup disk oldName := by
  obtain ⟨file, hfile, hcase | hcase⟩ := renameFile_cases h
  · rw [hcase.1, hcase.2, hfile]
  · rw [hcase, lookup_cons, hfile]
    simp

/-- A successful rename leaves every other name with its file. -/
theorem renameFile_lookup_other {env : Env} {disk d1 : Disk} {oldName newName x : Text}
    (h : renameFile env disk oldName newName = some d1) (ho : x ≠ oldName)
    (hn : x ≠ newName) : lookup d1 x = lookup disk x := by
  obtain ⟨file, _, hcase | hcase⟩ := renameFile_cases h
  · rw [hcase.1]
  · rw [hcase, lookup_cons, lookup_filter disk oldName newName x ho hn]
    have hne : ¬ (newName, file).1 = x := fun he => hn he.symm
    rw [if_neg hne]

theorem renameFile_new {env : Env} {disk d1 : Disk} {oldName newName : Text}
    (h : renameFile env disk oldName newName = some d1) :
    (lookup d1 newName).isSome = true := by
  obtain ⟨file, hfile, _⟩ := renameFile_cases h
  rw [renameFile_lookup_new h, hfile]
  rfl

theorem renameFile_keeps {env : Env} {disk d1 : Disk} {oldName newName x : Text}
    (h : renameFile env disk oldName newName = some d1)
    (hx : (lookup disk x).isSome = true) (hne : x ≠ oldName) :
    (lookup d1 x).isSome = true := by
  by_cases hxn : x = newName
  · rw [hxn]; exact renameFile_new h
  · rw [renameFile_lookup_other h hne hxn]; exact hx

theorem renameFilesFrom_files (env : Env) (a b : Text) (todo done : List Text) (disk : Disk)
    (st1 : State)
    (h : renameFilesFrom env a b done todo disk = .ok st1) :
    st1.files = done ++ todo.map (fun n => replace n a b) := by
  induction todo generalizing done disk with
  | nil =>
    simp only [renameFilesFrom, Except.ok.injEq] at h
    simp [← h]
  | cons name rest ih =>
    simp only [renameFilesFrom] at h
    split at h
    · cases h
    · rw [ih _ _ h]; simp

theorem renameFilesFrom_keeps (env : Env) (a b : Text) (todo done : List Text) (disk : Disk)
    (st1 : State) (h : renameFilesFrom env a b done todo disk = .ok st1) (x : Text)
    (hx : (lookup disk x).isSome = true) (hne : ∀ m ∈ todo, m ≠ x) :
    (lookup st1.disk x).isSome = true := by
  induction todo generalizing done disk with
  | nil =>
    simp only [renameFilesFrom, Except.ok.injEq] at h
    simpa [← h] using hx
  | cons name rest ih =>
    simp only [renameFilesFrom] at h
    split at h
    · cases h
    · rename_i d1 hd
      exact ih _ _ h (renameFile_keeps hd hx (hne name (List.mem_cons_self _ _)).symm)
        (fun m hm => hne m (List.mem_cons_of_mem _ hm))

theorem renameFilesFrom_adds (env : Env) (a b : Text) (todo done : List Text) (disk : Disk)
    (st1 : State) (h : renameFilesFrom env a b done todo disk = .ok st1) (m : Text)
    (hm : m ∈ todo) (hne : ∀ m2 ∈ todo, m2 ≠ replace m a b) :
    (lookup st1.disk (replace m a b)).isSome = true := by
  induction todo generalizing done disk with
  | nil => cases hm
  | cons name rest ih =>
    simp only [renameFilesFrom] at h
    split at h
    · cases h
    · rename_i d1 hd
      have hrest : ∀ m2 ∈ rest, m2 ≠ replace m a b :=
        fun m2 hm2 => hne m2 (List.mem_cons_of_mem _ hm2)
      rcases List.mem_cons.mp hm with rfl | hm1
      · exact renameFilesFrom_keeps env a b rest _ d1 st1 h _ (renameFile_new hd) hrest
      · exact ih _ _ h hm1 hrest

theorem map_replace_back (names : List Text) (hn : ∀ n ∈ names, Restorable n) :
    (names.map (fun n => replace n solExt txtExt)).map (fun n => replace n txtExt solExt) =
      names := by
  rw [List.map_map]
  conv_rhs => rw [← List.map_id names]
  apply List.map_congr_left
  intro n hmem
  exact replace_back (hn n hmem)

theorem filesToIgnore_restorable : ∀ n ∈ filesToIgnore, Restorable n := by
  intro n hn
  have h1 : n = "test/V4SwapIntent.t.sol".toList := by simpa [filesToIgnore] using hn
  rw [h1]
  exact ⟨"test/V4SwapIntent.t".toList, [], by decide, by decide, by decide⟩

/-- Where the two `renameFiles` calls do swap the extension and swap it back:
when both succeed and every name has no `.txt` before its first `.sol`, the
first call stores the `.txt` names and the second brings every entry back. -/
theorem renameFiles_round_trip (env : Env) (names : List Text) (disk : Disk)
    (st1 st2 : State) (hn : ∀ n ∈ names, Restorable n)
    (h1 : renameFiles env solExt txtExt ⟨names, disk⟩ = .ok st1)
    (h2 : renameFiles env txtExt solExt st1 = .ok st2) :
    st1.files = names.map (fun n => replace n solExt txtExt) ∧ st2.files = names := by
  have e1 := renameFilesFrom_files env solExt txtExt names [] disk st1 h1
  have e2 := renameFilesFrom_files env txtExt solExt st1.files [] st1.disk st2 h2
  rw [List.nil_append] at e1 e2
  refine ⟨e1, ?_⟩
  rw [e2, e1]
  exact map_replace_back names hn

/-! ## Claims about run_coverage.js -/

/-- C8: the second `renameFiles` call does not undo the first for the list
`['test/Notes.txt.sol']`.  Both calls succeed, the entry and the file go from
`test/Notes.txt.sol` to `test/Notes.txt.txt` and then to `test/Notes.sol.txt`,
and the whole run ends there without logging an error.  For the configured list
the same two calls do bring the entry back. -/
theorem round_trip_loses_name :
    includes txtBeforeSol ".sol".toList = true ∧
      renameFiles (allowAll true) ".sol".toList ".txt".toList (initialState [txtBeforeSol]) =
        .ok (initialState ["test/Notes.txt.txt".toList]) ∧
      renameFiles (allowAll true) ".txt".toList ".sol".toList
          (initialState ["test/Notes.txt.txt".toList]) =
        .ok (initialState ["test/Notes.sol.txt".toList]) ∧
      runCoverage (allowAll true) (initialState [txtBeforeSol]) =
        ⟨initialState ["test/Notes.sol.txt".toList], false⟩ ∧
      (initialState ["test/Notes.sol.txt".toList]).files ≠ [txtBeforeSol] ∧
      lookup (initialState ["test/Notes.sol.txt".toList]).disk txtBeforeSol = none ∧
      renameFiles (allowAll true) ".sol".toList ".txt".toList (initialState filesToIgnore) =
        .ok (initialState ["test/V4SwapIntent.t.txt".toList]) ∧
      renameFiles (allowAll true) ".txt".toList ".sol".toList
          (initialState ["test/V4SwapIntent.t.txt".toList]) =
        .ok (initialState filesToIgnore) := by
  decide

theorem renameFiles_back_disk (env : Env) (names : List Text) (st1 st2 : State)
    (hn : ∀ n ∈ names, Restorable n)
    (h1 : st1.files = names.map (fun n => replace n solExt txtExt))
    (h2 : renameFiles env txtExt solExt st1 = .ok st2) :
    ∀ n ∈ names, (lookup st2.disk n).isSome = true := by
  intro n hmem
  have hm : replace n solExt txtExt ∈ st1.files := by
    rw [h1]; exact List.mem_map_of_mem _ hmem
  have := renameFilesFrom_adds env txtExt solExt st1.files [] st1.disk st2 h2 _ hm
  rw [replace_back (hn n hmem)] at this
  apply this
  intro m2 hm2
  rw [h1, List.mem_map] at hm2
  obtain ⟨n2, hn2, rfl⟩ := hm2
  exact renamed_ne_original (hn n hmem) (hn n2 hn2)

/-- The path on which the files are restored: a run in which no step failed, on
names without `.txt` before their first `.sol`, ends with `filesToIgnore` as it
began and every one of its names on disk. -/
theorem runCoverage_restores_on_success (env : Env) (st : State)
    (hn : ∀ n ∈ st.files, Restorable n) (hok : (runCoverage env st).errorLogged = false) :
    (runCoverage env st).final.files = st.files ∧
      ∀ n ∈ st.files, (lookup (runCoverage env st).final.disk n).isSome = true := by
  unfold runCoverage at hok ⊢
  cases h1 : renameFiles env solExt txtExt st with
  | error e => simp [h1] at hok
  | ok st1 =>
    have e1 := renameFilesFrom_files env solExt txtExt st.files [] st.disk st1 h1
    rw [List.nil_append] at e1
    cases hc : env.commandSucceeds with
    | false => simp [h1, executeCommand, hc] at hok
    | true =>
      cases h2 : renameFiles env txtExt solExt st1 with
      | error e => simp [h1, executeCommand, hc, h2] at hok
      | ok st2 =>
        have e2 := renameFilesFrom_files env txtExt solExt st1.files [] st1.disk st2 h2
        rw [List.nil_append, e1, map_replace_back st.files hn] at e2
        simp only [h1, executeCommand, hc, if_true, h2]
        exact ⟨e2, renameFiles_back_disk env st.files st1 st2 hn e1 h2⟩

/-- The path on which nothing is restored: when the first renames succeed and the
command fails, the run ends in the state the first renames left, with the error
logged and `filesToIgnore` holding the `.txt` names. -/
theorem runCoverage_of_failed_command (env : Env) (st st1 : State)
    (h1 : renameFiles env solExt txtExt st = .ok st1) (hc : env.commandSucceeds = false) :
    runCoverage env st = ⟨st1, true⟩ ∧
      st1.files = st.files.map (fun n => replace n solExt txtExt) := by
  have e1 := renameFilesFrom_files env solExt txtExt st.files [] st.disk st1 h1
  rw [List.nil_append] at e1
  refine ⟨?_, e1⟩
  unfold runCoverage
  simp [h1, executeCommand, hc]

/-- C7: the files are not restored when the coverage command fails.  Whenever
the renames to `.txt` succeed and the command fails, the run ends in the state
those renames left, with the error logged.  With the configured list and its
file on disk, such a run ends with `test/V4SwapIntent.t.txt` on disk and no
`test/V4SwapIntent.t.sol`.  The same run with a succeeding command ends in the
state it began in. -/
theorem failed_command_leaves_txt :
    (∀ (env : Env) (st st1 : State),
        renameFiles env ".sol".toList ".txt".toList st = .ok st1 →
        env.commandSucceeds = false →
          runCoverage env st = ⟨st1, true⟩ ∧
            st1.files = st.files.map (fun n => replace n ".sol".toList ".txt".toList)) ∧
      runCoverage (allowAll false) (initialState filesToIgnore) =
        ⟨initialState ["test/V4SwapIntent.t.txt".toList], true⟩ ∧
      lookup (initialState filesToIgnore).disk "test/V4SwapIntent.t.sol".toList = some 0 ∧
      lookup (runCoverage (allowAll false) (initialState filesToIgnore)).final.disk
        "test/V4SwapIntent.t.sol".toList = none ∧
      lookup (runCoverage (allowAll false) (initialState filesToIgnore)).final.disk
        "test/V4SwapIntent.t.txt".toList = some 0 ∧
      runCoverage (allowAll true) (initialState filesToIgnore) =
        ⟨initialState filesToIgnore, false⟩ :=
  ⟨fun env st st1 h1 hc => runCoverage_of_failed_command env st st1 h1 hc,
    by decide, by decide, by decide, by decide, by decide⟩

end Atlas
